import Mathlib

/-
Verification of the position-counting pipeline of vondele/fastpopular.

The definitions below are shallow embeddings of the C++ source:
  * the sharded count table `zobrist_map` and its atomic
    `lazy_emplace_l` increment-or-insert (src/fastpopular.cpp, lines 203-224),
  * the game visitor `Analyze` (`header`/`startMoves`/`move`,
    src/fastpopular.cpp lines 77-235),
  * the metadata / path helpers and the exit paths of `main`
    (src/fastpopular.cpp lines 288-693),
  * the work planner `split_chunks` (src/fastpopular.hpp lines 127-145).

Machine integers are modelled as `Nat` with explicit reduction modulo
2^64 (the `std::uint64_t` counter values) and 2^32 (the `unsigned int`
`new_entry_count`) at the operations where the C++ type wraps.
Strings are modelled as `String` or `List Char` as convenient.
-/

namespace Fastpopular

/-- 2^64, the modulus of `std::uint64_t` counter values. -/
def U64 : Nat := 2 ^ 64

/-- 2^32, the modulus of `unsigned int` values. -/
def U32 : Nat := 2 ^ 32

/-- Number of occurrences of `k` in a list (the mathematical count of
`increment_or_insert` calls for a key). -/
def cnt (k : Nat) : List Nat → Nat
  | [] => 0
  | x :: xs => (if x = k then 1 else 0) + cnt k xs

/-- The count table: a map from 64-bit position hashes to 64-bit counters
(`zobrist_map` in src/fastpopular.cpp, line 34), modelled as an association
list. -/
abbrev Table := List (Nat × Nat)

/-- Map lookup. -/
def lookupTab : Table → Nat → Option Nat
  | [], _ => Option.none
  | (k, v) :: t, key => if k = key then some v else lookupTab t key

/-- Map update of an existing key (first matching entry). -/
def setTab : Table → Nat → Nat → Table
  | [], _, _ => []
  | (k, v) :: t, key, val =>
      if k = key then (k, val) :: t else (k, v) :: setTab t key val

/-- The atomic increment-or-insert of src/fastpopular.cpp lines 206-212
(`zobrist_map.lazy_emplace_l`): if the key exists, increment its value by
one (as `std::uint64_t`) and return `(false, new_value)`; otherwise insert
`(key, 1)` and return `(true, 1)`. -/
def increment_or_insert (t : Table) (key : Nat) : (Bool × Nat) × Table :=
  match lookupTab t key with
  | some v => ((false, (v + 1) % U64), setTab t key ((v + 1) % U64))
  | Option.none => ((true, 1), (key, 1) :: t)

/-- Run a sequence of `increment_or_insert` calls, collecting the
`(is_new, value_after)` results. -/
def runCalls : Table → List Nat → List (Bool × Nat) × Table
  | t, [] => ([], t)
  | t, k :: ks =>
      let r := increment_or_insert t k
      let rest := runCalls r.2 ks
      (r.1 :: rest.1, rest.2)

/-- Pure specification of the call results: the i-th call returns
whether the key was unseen in the preceding calls, and its occurrence
count up to and including this call (mod 2^64). -/
def callResults : List Nat → List Nat → List (Bool × Nat)
  | _, [] => []
  | done, k :: ks =>
      (decide (cnt k done = 0), (cnt k done + 1) % U64) :: callResults (done ++ [k]) ks

/-- Number of calls for key `k` that returned `is_new = true`. -/
def isNewEvents (k : Nat) : List Nat → List (Bool × Nat) → Nat
  | c :: cs, r :: rs => (if c = k ∧ r.1 = true then 1 else 0) + isNewEvents k cs rs
  | _, _ => 0

/-- Number of calls for key `k` whose post-increment value equals `m`:
these are exactly the calls on which the streaming writer emits the
position's line (src/fastpopular.cpp lines 214-223, `save_count` off). -/
def writeEvents (m k : Nat) : List Nat → List (Bool × Nat) → Nat
  | c :: cs, r :: rs => (if c = k ∧ r.2 = m then 1 else 0) + writeEvents m k cs rs
  | _, _ => 0

/-- Table/history invariant: the stored value of each key is its call
count so far, reduced mod 2^64; unseen keys are absent. -/
def Inv (done : List Nat) (t : Table) : Prop :=
  ∀ k, lookupTab t k = if cnt k done = 0 then Option.none else some (cnt k done % U64)

/-- Colour type of the chess library (`chess::Color`), including `NONE`. -/
inductive XColor where
  | white
  | black
  | none
deriving DecidableEq

/-- Per-game constant inputs of the visitor's `move` callback: the
constructor parameters of `Analyze` (src/fastpopular.cpp lines 60-71)
together with the per-game filter state fixed at `startMoves`.
`max_plies` is a C++ `int`, `count_stop_early` an `unsigned int` value. -/
structure MoveConfig where
  do_filter : Bool
  filter_side : XColor
  max_plies : Int
  count_stop_early : Nat
  min_count : Nat
  save_count : Bool
  tb_limit : Nat
  omit_mates : Bool

/-- Abstraction of one ply as seen by `Analyze::move` (src/fastpopular.cpp
lines 158-235): whether SAN resolution succeeded (no `NO_MOVE`, no
exception), the board data after `makeMove` (occupancy popcount, legal-move
existence, side to move, Zobrist hash), and the move's comment. -/
structure MoveIn where
  parse_ok : Bool
  piece_count : Nat
  has_legal : Bool
  side_to_move : XColor
  comment : String
  key : Nat

/-- Visitor state that changes across the moves of one game. -/
structure VisState where
  skip : Bool
  retained_plies : Nat
  new_entry_count : Nat
deriving DecidableEq

/-- Result of one `move` callback: new state, new table, number of
`increment_or_insert` calls performed (0 or 1) and of streaming line
emissions (0 or 1). -/
structure StepOut where
  st : VisState
  tab : Table
  inc : Nat
  wr : Nat

/-- One `Analyze::move` callback, src/fastpopular.cpp lines 158-235, in
source order: ply-budget check, SAN resolution, TB-limit check, mate
check, engine-side filter, book-comment check, `increment_or_insert`,
threshold emission, `new_entry_count` update and early-stop check.
A skipped game receives no further `move` callbacks from the parser,
modelled by the `skip` short-circuit in the first line. -/
def moveStep (cfg : MoveConfig) (st : VisState) (tab : Table) (mi : MoveIn) : StepOut :=
  if st.skip then ⟨st, tab, 0, 0⟩
  else if cfg.max_plies ≤ (st.retained_plies : Int) then ⟨⟨true, st.retained_plies, st.new_entry_count⟩, tab, 0, 0⟩
  else if mi.parse_ok = false then ⟨⟨true, st.retained_plies, st.new_entry_count⟩, tab, 0, 0⟩
  else if 1 < cfg.tb_limit ∧ mi.piece_count ≤ cfg.tb_limit then ⟨⟨true, st.retained_plies, st.new_entry_count⟩, tab, 0, 0⟩
  else if cfg.omit_mates = true ∧ mi.has_legal = false then ⟨⟨true, st.retained_plies, st.new_entry_count⟩, tab, 0, 0⟩
  else if cfg.do_filter = false ∨ cfg.filter_side = mi.side_to_move then
    if mi.comment ≠ "book" then
      if cfg.count_stop_early =
          (st.new_entry_count + (if (increment_or_insert tab mi.key).1.1 then 1 else 0)) % U32 then
        ⟨⟨true, st.retained_plies,
           (st.new_entry_count + (if (increment_or_insert tab mi.key).1.1 then 1 else 0)) % U32⟩,
         (increment_or_insert tab mi.key).2, 1,
         if (increment_or_insert tab mi.key).1.2 = cfg.min_count then
           (if cfg.save_count then 0 else 1) else 0⟩
      else
        ⟨⟨st.skip, st.retained_plies + 1,
           (st.new_entry_count + (if (increment_or_insert tab mi.key).1.1 then 1 else 0)) % U32⟩,
         (increment_or_insert tab mi.key).2, 1,
         if (increment_or_insert tab mi.key).1.2 = cfg.min_count then
           (if cfg.save_count then 0 else 1) else 0⟩
    else ⟨st, tab, 0, 0⟩
  else ⟨st, tab, 0, 0⟩

/-- Accumulated result of running the visitor over the plies of a game. -/
structure RunOut where
  st : VisState
  tab : Table
  inc : Nat
  wr : Nat

/-- Run `Analyze::move` over the moves of a game, threading the state and
the count table and summing the call/emission counts. -/
def runGame (cfg : MoveConfig) (st : VisState) (tab : Table) : List MoveIn → RunOut
  | [] => ⟨st, tab, 0, 0⟩
  | mi :: ms =>
      let o := moveStep cfg st tab mi
      let rest := runGame cfg o.st o.tab ms
      ⟨rest.st, rest.tab, o.inc + rest.inc, o.wr + rest.wr⟩

/-- Visitor state at the start of a game's move section:
`retained_plies = 0`, `new_entry_count = 0`, not skipping
(src/fastpopular.cpp lines 237-252 reset these at `endPgn`). -/
def initState : VisState := ⟨false, 0, 0⟩

/-- Outcome of `Analyze::startMoves`: either the game is skipped, or it is
played with the resulting `do_filter` flag and `filter_side`. -/
inductive StartOut where
  | skip
  | play (do_filter : Bool) (filter_side : XColor)
deriving DecidableEq

/-- `Analyze::startMoves`, src/fastpopular.cpp lines 122-156. `matches` is
the oracle for `std::regex_match(-, regex)` on a player name; `regex_set`
is `!regex_engine.empty()`. -/
def startMoves (hasResult : Bool) (whiteElo blackElo min_Elo : Int)
    (regex_set : Bool) (mtc : String → Bool) (white black : String) : StartOut :=
  if hasResult = false then StartOut.skip
  else if whiteElo < min_Elo ∨ blackElo < min_Elo then StartOut.skip
  else if regex_set then
    if white = "" ∨ black = "" then StartOut.skip
    else
      if mtc black then
        if (if mtc white then XColor.white else XColor.none) = XColor.none then
          StartOut.play true XColor.black
        else StartOut.play false (if mtc white then XColor.white else XColor.none)
      else StartOut.play true (if mtc white then XColor.white else XColor.none)
  else StartOut.play false XColor.none

/-- Sample configuration for concrete checks: no filtering,
`count_stop_early = 1` (i.e. `--stopEarly --countStopEarly 1`). -/
def cfgA : MoveConfig := ⟨false, XColor.none, 5, 1, 1, false, 1, false⟩

/-- Sample configuration: no filtering, `stopEarly` off
(`count_stop_early` is `UINT_MAX`). -/
def cfgB : MoveConfig := ⟨false, XColor.none, 5, U32 - 1, 1, false, 1, false⟩

/-- Sample configuration: engine filter active but no side matched
(the state `startMoves` produces when neither name matches the regex). -/
def cfgC : MoveConfig := ⟨true, XColor.none, 10, U32 - 1, 1, false, 1, false⟩

/-- Sample ply: a successfully parsed non-book move after which White is
to move (i.e. a move that was made by Black). -/
def miA : MoveIn := ⟨true, 32, true, XColor.white, "", 7⟩

/-- Sample configuration: engine filter active with `filter_side = WHITE`
(only the White name matched the regex). -/
def cfgD : MoveConfig := ⟨true, XColor.white, 10, U32 - 1, 1, false, 1, false⟩

/-- Sample ply: a successfully parsed non-book move after which Black is
to move (i.e. a move that was made by White). -/
def miB : MoveIn := ⟨true, 32, true, XColor.black, "", 9⟩

/-- Sample regex oracle: matches exactly the name "Engine". -/
def matchesC : String → Bool := fun s => s == "Engine"

/-- The FEN header rewrite of `Analyze::header` (src/fastpopular.cpp lines
79-88): when `fix_fen` supplied a non-empty `move_counter` and the regex
`"0 1$"` matches the value (i.e. the value ends with the three characters
'0', ' ', '1'), `std::regex_replace` replaces that trailing `"0 1"` with
`"0 " + move_counter` before `setFen`. Strings are lists of characters. -/
def fixFenValue (move_counter v : List Char) : List Char :=
  if move_counter ≠ [] ∧ ('0' :: ' ' :: '1' :: []).isSuffixOf v then
    v.take (v.length - 3) ++ '0' :: ' ' :: move_counter
  else v

/-- The rewrite condition as the specification words it: the value ends
with the four characters " 0 1" (space, zero, space, one). -/
def specFixCond (v : List Char) : Bool := (' ' :: '0' :: ' ' :: '1' :: []).isSuffixOf v

/-- A filesystem path, pre-split into `fs::path::parent_path()` and
`fs::path::filename()`. -/
structure Path where
  parent : List Char
  base : List Char
deriving DecidableEq

/-- `filename.substr(0, filename.find_first_of("-."))` (src/fastpopular.cpp
lines 379-380): the prefix of the base name before the first '-' or '.'
(the whole name if neither occurs). -/
def test_id (filename : List Char) : List Char :=
  filename.takeWhile (fun c => ! (c == '-' || c == '.'))

/-- `fs::path` append `parent_path() / x` (parent paths here do not end in
a separator). -/
def joinPath (parent child : List Char) : List Char :=
  if parent = [] then child else parent ++ '/' :: child

/-- The key under which a file's test metadata is stored
(src/fastpopular.cpp lines 377-381): the parent path joined with
`test_id`. -/
def test_filename (p : Path) : List Char := joinPath p.parent (test_id p.base)

/-- Modelled from the claim's words: the base name with everything from the
LAST '-' onward removed. Used only to compare the claim's description with
the code's `test_id`. -/
def stripLastDash (filename : List Char) : List Char :=
  ((filename.reverse.dropWhile (fun c => ! (c == '-'))).drop 1).reverse

/-- The claim's version of the metadata key: parent joined with the base
name stripped from its last '-'. -/
def spec_test_filename (p : Path) : List Char := joinPath p.parent (stripLastDash p.base)

/-- The chunking loop of `split_chunks` (src/fastpopular.hpp lines
131-142) with chunk size `cs`: while elements remain, the next
`min cs remaining` elements form the next chunk. The C++ loop runs with
`cs = 0` only on an empty input, where its body never executes. -/
def chunksGo {α : Type} (cs : Nat) : List α → List (List α)
  | [] => []
  | x :: xs => (x :: xs.take (cs - 1)) :: chunksGo cs (xs.drop (cs - 1))
termination_by l => l.length
decreasing_by simp [List.length_drop]; omega

/-- `split_chunks` (src/fastpopular.hpp lines 127-145): the chunk size is
`(pgns.size() + target_chunks - 1) / target_chunks` and the list is cut
into successive chunks of that size. -/
def split_chunks {α : Type} (pgns : List α) (target_chunks : Nat) : List (List α) :=
  chunksGo ((pgns.length + target_chunks - 1) / target_chunks) pgns

/-- Test metadata record (`TestMetaData` in src/fastpopular.hpp lines
20-24): optional book name, SPRT flag and book depth. -/
structure TestMeta where
  book : Option (List Char)
  sprt : Option Bool
  book_depth : Option Int

/-- The regex search for pattern ".epd" (src/fastpopular.cpp line 321):
'.' matches any character, so the search succeeds iff some character is
followed by the literal "epd". -/
def epdSearch : List Char → Bool
  | _ :: d :: e :: f :: rest =>
      (d == 'e' && e == 'p' && f == 'd') || epdSearch (d :: e :: f :: rest)
  | _ => false

/-- The per-file `fix_fens` metadata check of `analysis::ana_files`
(src/fastpopular.cpp lines 297-330) over a chunk of files: `true` iff the
loop calls `std::exit(1)` — no metadata entry for the file's test, or no
`book_depth` together with a missing `book` key or an ".epd"-matching book
name. With `fix_fens` off the loop never exits. -/
def ana_exit (meta : List Char → Option TestMeta) (fix_fens : Bool) : List Path → Bool
  | [] => false
  | p :: ps =>
      if fix_fens then
        match meta (test_filename p) with
        | Option.none => true
        | some md =>
            match md.book_depth with
            | some _ => ana_exit meta fix_fens ps
            | Option.none =>
                match md.book with
                | Option.none => true
                | some b => if epdSearch b then true else ana_exit meta fix_fens ps
      else false

/-- Association-list lookup for the duplicate-test map of `get_metadata`. -/
def lookupStr : List (List Char × List Char) → List Char → Option (List Char)
  | [], _ => Option.none
  | (k, v) :: t, key => if k = key then some v else lookupStr t key

/-- The duplicate-test detection of `get_metadata` (src/fastpopular.cpp
lines 377-399): walk the file list keeping the first `test_filename` seen
for each `test_id`, and report `true` iff some later file has the same
`test_id` but a different `test_filename` (without `--allowDuplicates`
the program exits 1 there). -/
def dup_check : List Path → List (List Char × List Char) → Bool
  | [], _ => false
  | p :: ps, m =>
      match lookupStr m (test_id p.base) with
      | some tf0 => if tf0 ≠ test_filename p then true else dup_check ps m
      | Option.none => dup_check ps ((test_id p.base, test_filename p) :: m)

/-- The full path string of a file (`fs::path::string()`). -/
def pathStr (p : Path) : List Char := joinPath p.parent p.base

/-- Lexicographic `operator<=` of `std::string`. -/
def strLe : List Char → List Char → Bool
  | [], _ => true
  | _ :: _, [] => false
  | a :: as, b :: bs => if a < b then true else if b < a then false else strLe as bs

/-- Insertion step of sorting the file list. -/
def insertLe (p : Path) : List Path → List Path
  | [] => p :: []
  | q :: qs => if strLe (pathStr p) (pathStr q) then p :: q :: qs else q :: insertLe p qs

/-- `std::sort(files_pgn.begin(), files_pgn.end())` (src/fastpopular.cpp
line 583), modelled as insertion sort by the path string. -/
def sortPaths : List Path → List Path
  | [] => []
  | p :: ps => insertLe p (sortPaths ps)

/-- `files_pgn[i].find(files_pgn[i-1]) == 0`: the earlier string is an
initial segment of the later one. -/
def startsWithStr : List Char → List Char → Bool
  | [], _ => true
  | _ :: _, [] => false
  | a :: as, b :: bs => a == b && startsWithStr as bs

/-- The "duplicate file" check of src/fastpopular.cpp lines 585-591: on
the sorted list, `true` iff some adjacent pair has the earlier path string
an initial segment of the later one (e.g. `foo.pgn` and `foo.pgn.gz`). -/
def adjacentDup : List (List Char) → Bool
  | a :: b :: rest => startsWithStr a b || adjacentDup (b :: rest)
  | _ => false

/-- The command-line options of `main` relevant to its exit paths (the
`--SPRTonly` / `--matchBook` filters are off here). -/
structure MainArgs where
  file : Option Path
  allow_duplicates : Bool
  save_count : Bool
  omit_move_counter : Bool
  fix_fens : Bool
  concurrency : Nat

/-- The environment `main` runs in: whether the `--file` target exists on
disk, the files `get_files` finds when no `--file` is given, and the
parsed sidecar metadata (`Option.none` models an absent json file). -/
structure MainEnv where
  file_on_disk : Path → Bool
  discovered : List Path
  meta : List Char → Option TestMeta

/-- The file list `main` works on (src/fastpopular.cpp lines 562-580). -/
def mainFiles (a : MainArgs) (env : MainEnv) : List Path :=
  match a.file with
  | some p => p :: []
  | Option.none => env.discovered

/-- The exit decision of `main` once the file list exists, in source order
(src/fastpopular.cpp lines 583-667): sort; adjacent duplicate-file check;
`get_metadata`'s duplicate-test check; the `--saveCount` without
`--omitMoveCounter` check; then `process` → `split_chunks` → `ana_files`,
whose `fix_fens` metadata check may exit from any chunk. All error paths
exit 1; success returns 0. -/
def mainChecks (a : MainArgs) (env : MainEnv) (files : List Path) : Nat :=
  if adjacentDup ((sortPaths files).map pathStr) then 1
  else if dup_check (sortPaths files) [] ∧ a.allow_duplicates = false then 1
  else if a.save_count = true ∧ a.omit_move_counter = false then 1
  else if (split_chunks (sortPaths files) (4 * a.concurrency)).any
      (fun ch => ana_exit env.meta a.fix_fens ch) then 1
  else 0

/-- `main`'s exit status (src/fastpopular.cpp lines 540-693): a missing
`--file` target exits 1 immediately (lines 562-567); otherwise the checks
above decide. -/
def mainExit (a : MainArgs) (env : MainEnv) : Nat :=
  match a.file with
  | some p => if env.file_on_disk p = false then 1 else mainChecks a env (p :: [])
  | Option.none => mainChecks a env env.discovered

/-- Sample arguments: `--saveCount` without `--omitMoveCounter`. -/
def argsW : MainArgs := ⟨Option.none, false, true, false, false, 1⟩

/-- Sample environment: no files found, no metadata. -/
def envW : MainEnv := ⟨fun _ => true, [], fun _ => Option.none⟩

lemma one_lt_U64 : 1 < U64 := by norm_num [U64]

lemma cnt_append (k : Nat) (a b : List Nat) : cnt k (a ++ b) = cnt k a + cnt k b := by
  induction a with
  | nil => simp [cnt]
  | cons x xs ih => simp [cnt, ih]; omega

lemma cnt_le_length (k : Nat) (l : List Nat) : cnt k l ≤ l.length := by
  induction l with
  | nil => simp [cnt]
  | cons x xs ih => simp [cnt]; split <;> omega

lemma lookupTab_setTab (t : Table) (k v k' : Nat) :
    lookupTab (setTab t k v) k' =
      if k' = k then (lookupTab t k).map (fun _ => v) else lookupTab t k' := by
  induction t with
  | nil => simp [lookupTab, setTab]
  | cons hd tl ih =>
      obtain ⟨a, b⟩ := hd
      by_cases hak : a = k
      · subst hak
        by_cases hk' : a = k'
        · subst hk'
          simp [setTab, lookupTab]
        · have hk'2 : ¬ k' = a := fun h2 => hk' h2.symm
          simp [setTab, lookupTab, hk', hk'2]
      · by_cases hk' : a = k'
        · subst hk'
          simp [setTab, lookupTab, hak]
        · simp [setTab, lookupTab, hak, hk', ih]

lemma mod_succ_mod (a : Nat) : (a % U64 + 1) % U64 = (a + 1) % U64 := by
  conv_rhs => rw [Nat.add_mod]
  rw [Nat.mod_eq_of_lt one_lt_U64]

lemma increment_or_insert_fst (done : List Nat) (t : Table) (k : Nat) (h : Inv done t) :
    (increment_or_insert t k).1 = (decide (cnt k done = 0), (cnt k done + 1) % U64) := by
  have hk := h k
  by_cases h0 : cnt k done = 0
  · simp [h0] at hk
    simp [increment_or_insert, hk, h0, Nat.mod_eq_of_lt one_lt_U64]
  · simp [h0] at hk
    simp [increment_or_insert, hk, h0, mod_succ_mod]

lemma increment_or_insert_inv (done : List Nat) (t : Table) (k : Nat) (h : Inv done t) :
    Inv (done ++ [k]) (increment_or_insert t k).2 := by
  have hk := h k
  by_cases h0 : cnt k done = 0
  · simp [h0] at hk
    simp only [increment_or_insert, hk]
    intro k'
    by_cases hkk : k = k'
    · subst hkk
      simp [lookupTab, cnt_append, cnt, h0, Nat.mod_eq_of_lt one_lt_U64]
    · have hl := h k'
      have hc : cnt k' (done ++ [k]) = cnt k' done := by simp [cnt_append, cnt, hkk]
      simp [lookupTab, hkk, hc, hl]
  · simp [h0] at hk
    simp only [increment_or_insert, hk]
    intro k'
    rw [lookupTab_setTab]
    by_cases hkk : k' = k
    · subst hkk
      have hc : cnt k' (done ++ [k']) = cnt k' done + 1 := by simp [cnt_append, cnt]
      simp [hk, hc, mod_succ_mod]
    · have hkk2 : ¬ k = k' := fun h2 => hkk h2.symm
      have hc : cnt k' (done ++ [k]) = cnt k' done := by simp [cnt_append, cnt, hkk2]
      simp [hkk, hc, h k']

lemma runCalls_results : ∀ (calls done : List Nat) (t : Table), Inv done t →
    (runCalls t calls).1 = callResults done calls ∧ Inv (done ++ calls) (runCalls t calls).2 := by
  intro calls
  induction calls with
  | nil => intro done t h; simpa [runCalls, callResults] using h
  | cons k ks ih =>
      intro done t h
      have hfst := increment_or_insert_fst done t k h
      have hinv := increment_or_insert_inv done t k h
      have := ih (done ++ [k]) (increment_or_insert t k).2 hinv
      constructor
      · simp only [runCalls, callResults, hfst, this.1]
      · have h2 := this.2
        simpa [runCalls, List.append_assoc] using h2

lemma Inv_nil : Inv [] [] := by
  intro k; simp [lookupTab, cnt]

lemma callResults_idx : ∀ (calls done : List Nat) (i k : Nat), calls[i]? = some k →
    (callResults done calls)[i]? =
      some (decide (cnt k (done ++ calls.take i) = 0),
            (cnt k (done ++ calls.take (i + 1))) % U64) := by
  intro calls
  induction calls with
  | nil => intro done i k h; simp at h
  | cons k0 ks ih =>
      intro done i k h
      match i with
      | 0 =>
          simp at h
          subst h
          simp [callResults, cnt_append, cnt]
      | i + 1 =>
          simp at h
          have := ih (done ++ [k0]) i k h
          simp [callResults]
          rw [this]
          simp [List.append_assoc]

lemma isNewEvents_callResults : ∀ (calls done : List Nat) (k : Nat),
    isNewEvents k calls (callResults done calls)
      = if cnt k done = 0 ∧ 0 < cnt k calls then 1 else 0 := by
  intro calls
  induction calls with
  | nil => intro done k; simp [isNewEvents, callResults, cnt]
  | cons k0 ks ih =>
      intro done k
      by_cases hk : k0 = k
      · subst hk
        have hrest := ih (done ++ [k0]) k0
        have hc : cnt k0 (done ++ [k0]) = cnt k0 done + 1 := by simp [cnt_append, cnt]
        rw [hc] at hrest
        have hck : cnt k0 (k0 :: ks) = 1 + cnt k0 ks := by simp [cnt]
        simp only [callResults, isNewEvents]
        rw [hrest, hck]
        by_cases h0 : cnt k0 done = 0
        · simp [h0]
        · simp [h0]
      · have hrest := ih (done ++ [k0]) k
        have h1 : (if k0 = k then 1 else 0) = 0 := by simp [hk]
        have hc : cnt k (done ++ [k0]) = cnt k done := by simp [cnt_append, cnt, h1]
        rw [hc] at hrest
        have hck : cnt k (k0 :: ks) = cnt k ks := by simp [cnt, hk]
        simp only [callResults, isNewEvents]
        rw [hrest, hck]
        simp [hk]

lemma writeEvents_callResults : ∀ (calls done : List Nat) (m k : Nat), 1 ≤ m →
    done.length + calls.length < U64 →
    writeEvents m k calls (callResults done calls)
      = if cnt k done < m ∧ m ≤ cnt k done + cnt k calls then 1 else 0 := by
  intro calls
  induction calls with
  | nil =>
      intro done m k hm _
      have hcond : ¬ (cnt k done < m ∧ m ≤ cnt k done + cnt k ([] : List Nat)) := by
        simp only [cnt]
        omega
      rw [if_neg hcond]
      simp [writeEvents, callResults]
  | cons k0 ks ih =>
      intro done m k hm hlen
      have hbound : cnt k0 done + 1 < U64 := by
        have := cnt_le_length k0 done
        simp at hlen; omega
      have hmod : (cnt k0 done + 1) % U64 = cnt k0 done + 1 := Nat.mod_eq_of_lt hbound
      have hlen' : (done ++ [k0]).length + ks.length < U64 := by simp at hlen ⊢; omega
      by_cases hk : k0 = k
      · subst hk
        have hrest := ih (done ++ [k0]) m k0 hm hlen'
        have hc : cnt k0 (done ++ [k0]) = cnt k0 done + 1 := by simp [cnt_append, cnt]
        rw [hc] at hrest
        have hck : cnt k0 (k0 :: ks) = 1 + cnt k0 ks := by simp [cnt]
        simp only [callResults, writeEvents, hmod]
        rw [hrest, hck]
        simp only [eq_self_iff_true, true_and]
        split_ifs <;> omega
      · have hrest := ih (done ++ [k0]) m k hm hlen'
        have h1 : (if k0 = k then 1 else 0) = 0 := by simp [hk]
        have hc : cnt k (done ++ [k0]) = cnt k done := by simp [cnt_append, cnt, h1]
        rw [hc] at hrest
        have hck : cnt k (k0 :: ks) = cnt k ks := by simp [cnt, hk]
        simp only [callResults, writeEvents]
        rw [hrest, hck]
        simp [hk]

/-- C1: in streaming mode (`save_count` off) with `stopEarly=false` and
`min_count ≥ 1`, for every position key the streaming line-emission event
(post-increment value equal to `min_count`, src/fastpopular.cpp line 214)
happens exactly once if the key's final count is at least `min_count` and
never otherwise; and at each call for the key, the emission condition holds
iff the key's count up to and including that call equals `min_count`. -/
theorem streaming_write_spec (calls : List Nat) (m k : Nat) (hm : 1 ≤ m)
    (h : calls.length < U64) :
    writeEvents m k calls (runCalls [] calls).1 = (if m ≤ cnt k calls then 1 else 0)
    ∧ (∀ i r, calls[i]? = some k → (runCalls [] calls).1[i]? = some r →
        (r.2 = m ↔ cnt k (calls.take (i + 1)) = m)) := by
  have hres := runCalls_results calls [] [] Inv_nil
  constructor
  · rw [hres.1]
    have h2 := writeEvents_callResults calls [] m k hm (by simpa using h)
    simp only [cnt, Nat.zero_add] at h2
    rw [h2]
    split_ifs <;> omega
  · intro i r hik hr
    have hidx := callResults_idx calls [] i k hik
    rw [hres.1] at hr
    rw [hidx] at hr
    have hcb : cnt k (calls.take (i + 1)) < U64 := by
      have h1 := cnt_le_length k (calls.take (i + 1))
      have h2 : (calls.take (i + 1)).length ≤ calls.length := by
        simp [List.length_take]
      omega
    have : r = (decide (cnt k (calls.take i) = 0), cnt k (calls.take (i + 1)) % U64) := by
      simpa using hr.symm
    subst this
    simp [Nat.mod_eq_of_lt hcb]

/-- C1 witness. -/
theorem streaming_write_spec_witness :
    (1 ≤ 2 ∧ ([5, 5, 7] : List Nat).length < U64)
    ∧ writeEvents 2 5 [5, 5, 7] (runCalls [] [5, 5, 7]).1
        = (if 2 ≤ cnt 5 [5, 5, 7] then 1 else 0) :=
  ⟨⟨by decide, by decide⟩, (streaming_write_spec [5, 5, 7] 2 5 (by decide) (by decide)).1⟩

/-- C2: starting from the empty table, the i-th `increment_or_insert` call
returns `is_new = true` iff its key is unseen among the earlier calls
(hence exactly `(true, 1)` the first time and `(false, n)` with `n` the
number of completed calls for the key afterwards); after any prefix of the
call sequence the stored value of each key equals the number of completed
calls for it (absent keys have zero calls); and `is_new = true` occurs
exactly once per key that is ever passed. -/
theorem increment_or_insert_spec (calls : List Nat) (h : calls.length < U64) :
    (∀ i k, calls[i]? = some k →
        (runCalls [] calls).1[i]? =
          some (decide (cnt k (calls.take i) = 0), cnt k (calls.take (i + 1))))
    ∧ (∀ n k, lookupTab (runCalls [] (calls.take n)).2 k =
        if cnt k (calls.take n) = 0 then Option.none else some (cnt k (calls.take n)))
    ∧ (∀ k, isNewEvents k calls (runCalls [] calls).1 = if 0 < cnt k calls then 1 else 0) := by
  refine ⟨?_, ?_, ?_⟩
  · intro i k hik
    have hres := runCalls_results calls [] [] Inv_nil
    rw [hres.1]
    have hidx := callResults_idx calls [] i k hik
    have hcb : cnt k (calls.take (i + 1)) < U64 := by
      have h1 := cnt_le_length k (calls.take (i + 1))
      have h2 : (calls.take (i + 1)).length ≤ calls.length := by
        simp [List.length_take]
      omega
    rw [hidx]
    simp [Nat.mod_eq_of_lt hcb]
  · intro n k
    have hres := runCalls_results (calls.take n) [] [] Inv_nil
    have hinv := hres.2 k
    simp at hinv
    have hcb : cnt k (calls.take n) < U64 := by
      have h1 := cnt_le_length k (calls.take n)
      have h2 : (calls.take n).length ≤ calls.length := by
        simp [List.length_take]
      omega
    rw [hinv]
    by_cases h0 : cnt k (calls.take n) = 0
    · simp [h0]
    · simp [h0, Nat.mod_eq_of_lt hcb]
  · intro k
    have hres := runCalls_results calls [] [] Inv_nil
    rw [hres.1]
    have := isNewEvents_callResults calls [] k
    simpa [cnt] using this

/-- C2 witness. -/
theorem increment_or_insert_spec_witness :
    ([4, 4, 9] : List Nat).length < U64
    ∧ (runCalls [] [4, 4, 9]).1[1]? =
        some (decide (cnt 4 (([4, 4, 9] : List Nat).take 1) = 0),
              cnt 4 (([4, 4, 9] : List Nat).take 2)) :=
  ⟨by decide, (increment_or_insert_spec [4, 4, 9] (by decide)).1 1 4 (by decide)⟩

lemma moveStep_skip (cfg : MoveConfig) (st : VisState) (tab : Table) (mi : MoveIn)
    (h : st.skip = true) : moveStep cfg st tab mi = ⟨st, tab, 0, 0⟩ := by
  simp [moveStep, h]

lemma runGame_skip (cfg : MoveConfig) (st : VisState) (tab : Table) (g : List MoveIn)
    (h : st.skip = true) : runGame cfg st tab g = ⟨st, tab, 0, 0⟩ := by
  induction g with
  | nil => rfl
  | cons mi ms ih => simp [runGame, moveStep_skip cfg st tab mi h, ih]

lemma moveStep_spec (cfg : MoveConfig) (st : VisState) (tab : Table) (mi : MoveIn) :
    moveStep cfg st tab mi = ⟨st, tab, 0, 0⟩
    ∨ (st.skip = false ∧
        moveStep cfg st tab mi = ⟨⟨true, st.retained_plies, st.new_entry_count⟩, tab, 0, 0⟩)
    ∨ (st.skip = false ∧ (st.retained_plies : Int) < cfg.max_plies ∧
        ∃ b w, b ≤ 1 ∧
          ((cfg.count_stop_early = (st.new_entry_count + b) % U32 ∧
              moveStep cfg st tab mi =
                ⟨⟨true, st.retained_plies, (st.new_entry_count + b) % U32⟩,
                 (increment_or_insert tab mi.key).2, 1, w⟩)
            ∨ (cfg.count_stop_early ≠ (st.new_entry_count + b) % U32 ∧
              moveStep cfg st tab mi =
                ⟨⟨false, st.retained_plies + 1, (st.new_entry_count + b) % U32⟩,
                 (increment_or_insert tab mi.key).2, 1, w⟩))) := by
  by_cases h1 : st.skip
  · exact Or.inl (moveStep_skip cfg st tab mi h1)
  · have h1' : st.skip = false := by simpa using h1
    by_cases h2 : cfg.max_plies ≤ (st.retained_plies : Int)
    · exact Or.inr (Or.inl ⟨h1', by simp [moveStep, h1', h2]⟩)
    · by_cases h3 : mi.parse_ok = false
      · exact Or.inr (Or.inl ⟨h1', by simp [moveStep, h1', h2, h3]⟩)
      · by_cases h4 : 1 < cfg.tb_limit ∧ mi.piece_count ≤ cfg.tb_limit
        · exact Or.inr (Or.inl ⟨h1', by simp [moveStep, h1', h2, h3, h4]⟩)
        · by_cases h5 : cfg.omit_mates = true ∧ mi.has_legal = false
          · exact Or.inr (Or.inl ⟨h1', by simp [moveStep, h1', h2, h3, h4, h5]⟩)
          · by_cases h6 : cfg.do_filter = false ∨ cfg.filter_side = mi.side_to_move
            · by_cases h7 : mi.comment = "book"
              · exact Or.inl (by simp [moveStep, h1', h2, h3, h4, h5, h6, h7])
              · by_cases h8 : cfg.count_stop_early =
                    (st.new_entry_count +
                      (if (increment_or_insert tab mi.key).1.1 then 1 else 0)) % U32
                · refine Or.inr (Or.inr ⟨h1', by omega, ?_⟩)
                  refine ⟨(if (increment_or_insert tab mi.key).1.1 then 1 else 0),
                    (if (increment_or_insert tab mi.key).1.2 = cfg.min_count then
                      (if cfg.save_count then 0 else 1) else 0), by split <;> omega, ?_⟩
                  exact Or.inl ⟨h8, by simp [moveStep, h1', h2, h3, h4, h5, h6, h7, h8]⟩
                · refine Or.inr (Or.inr ⟨h1', by omega, ?_⟩)
                  refine ⟨(if (increment_or_insert tab mi.key).1.1 then 1 else 0),
                    (if (increment_or_insert tab mi.key).1.2 = cfg.min_count then
                      (if cfg.save_count then 0 else 1) else 0), by split <;> omega, ?_⟩
                  refine Or.inr ⟨h8, ?_⟩
                  simp [moveStep, h1', h2, h3, h4, h5, h6, h7, h8]
            · exact Or.inl (by simp [moveStep, h1', h2, h3, h4, h5, h6])

lemma runGame_inc_le (cfg : MoveConfig) : ∀ (g : List MoveIn) (st : VisState) (tab : Table),
    (runGame cfg st tab g).inc ≤ cfg.max_plies.toNat - st.retained_plies := by
  intro g
  induction g with
  | nil => intro st tab; simp [runGame]
  | cons mi ms ih =>
      intro st tab
      simp only [runGame]
      rcases moveStep_spec cfg st tab mi with h | ⟨hsk, h⟩ | ⟨hsk, hlt, b, w, hb, h⟩
      · rw [h]
        have := ih st tab
        simpa using this
      · rw [h]
        have := ih ⟨true, st.retained_plies, st.new_entry_count⟩ tab
        simpa using this
      · rcases h with ⟨hcse, h⟩ | ⟨hcse, h⟩
        · rw [h]
          rw [runGame_skip cfg _ _ ms rfl]
          simp
          omega
        · rw [h]
          have := ih ⟨false, st.retained_plies + 1, (st.new_entry_count + b) % U32⟩
            (increment_or_insert tab mi.key).2
          simp at this ⊢
          omega

lemma runGame_nec_le (cfg : MoveConfig) : ∀ (g : List MoveIn) (st : VisState) (tab : Table),
    st.new_entry_count + (cfg.max_plies.toNat - st.retained_plies) < U32 →
    (runGame cfg st tab g).st.new_entry_count ≤
      st.new_entry_count + (cfg.max_plies.toNat - st.retained_plies) := by
  intro g
  induction g with
  | nil => intro st tab hlt; simp [runGame]
  | cons mi ms ih =>
      intro st tab hlt
      simp only [runGame]
      rcases moveStep_spec cfg st tab mi with h | ⟨hsk, h⟩ | ⟨hsk, hplt, b, w, hb, h⟩
      · rw [h]
        exact ih st tab hlt
      · rw [h]
        have := ih ⟨true, st.retained_plies, st.new_entry_count⟩ tab (by simpa using hlt)
        simpa using this
      · have hmod : (st.new_entry_count + b) % U32 = st.new_entry_count + b := by
          apply Nat.mod_eq_of_lt
          omega
        rcases h with ⟨hcse, h⟩ | ⟨hcse, h⟩
        · rw [h]
          rw [runGame_skip cfg _ _ ms rfl]
          simp [hmod]
          omega
        · rw [h]
          have := ih ⟨false, st.retained_plies + 1, (st.new_entry_count + b) % U32⟩
            (increment_or_insert tab mi.key).2 (by simp [hmod]; omega)
          simp [hmod] at this ⊢
          omega

lemma runGame_ne_cse (cfg : MoveConfig) : ∀ (g : List MoveIn) (st : VisState) (tab : Table),
    (st.skip = false → st.new_entry_count ≠ cfg.count_stop_early) →
    ((runGame cfg st tab g).st.skip = false →
      (runGame cfg st tab g).st.new_entry_count ≠ cfg.count_stop_early) := by
  intro g
  induction g with
  | nil => intro st tab h; simpa [runGame] using h
  | cons mi ms ih =>
      intro st tab h
      simp only [runGame]
      rcases moveStep_spec cfg st tab mi with hm | ⟨hsk, hm⟩ | ⟨hsk, hplt, b, w, hb, hm⟩
      · rw [hm]
        exact ih st tab h
      · rw [hm]
        exact ih ⟨true, st.retained_plies, st.new_entry_count⟩ tab (by intro hf; simp at hf)
      · rcases hm with ⟨hcse, hm⟩ | ⟨hcse, hm⟩
        · rw [hm]
          rw [runGame_skip cfg _ _ ms rfl]
          intro hf
          simp at hf
        · rw [hm]
          refine ih ⟨false, st.retained_plies + 1, (st.new_entry_count + b) % U32⟩
            (increment_or_insert tab mi.key).2 ?_
          intro _
          exact fun hc => hcse hc.symm

lemma runGame_inc_append (cfg : MoveConfig) (a b : List MoveIn) :
    ∀ (st : VisState) (tab : Table),
    (runGame cfg st tab (a ++ b)).inc
      = (runGame cfg st tab a).inc
        + (runGame cfg (runGame cfg st tab a).st (runGame cfg st tab a).tab b).inc := by
  induction a with
  | nil => intro st tab; simp [runGame]
  | cons mi ms ih => intro st tab; simp [runGame, ih, Nat.add_assoc]

lemma moveStep_nocount (cfg : MoveConfig) (st : VisState) (tab : Table) (mi : MoveIn)
    (h : (cfg.do_filter = true ∧ cfg.filter_side ≠ mi.side_to_move) ∨ mi.comment = "book") :
    (moveStep cfg st tab mi).inc = 0
    ∧ (moveStep cfg st tab mi).st.retained_plies = st.retained_plies := by
  unfold moveStep
  by_cases h1 : st.skip
  · simp [h1]
  · by_cases h2 : cfg.max_plies ≤ (st.retained_plies : Int)
    · simp [h1, h2]
    · by_cases h3 : mi.parse_ok = false
      · simp [h1, h2, h3]
      · by_cases h4 : 1 < cfg.tb_limit ∧ mi.piece_count ≤ cfg.tb_limit
        · simp [h1, h2, h3, h4]
        · by_cases h5 : cfg.omit_mates = true ∧ mi.has_legal = false
          · simp [h1, h2, h3, h4, h5]
          · rcases h with ⟨hdf, hfs⟩ | hbook
            · have h6 : ¬ (cfg.do_filter = false ∨ cfg.filter_side = mi.side_to_move) := by
                simp [hdf, hfs]
              simp [h1, h2, h3, h4, h5, h6]
            · by_cases h6 : cfg.do_filter = false ∨ cfg.filter_side = mi.side_to_move
              · simp [h1, h2, h3, h4, h5, h6, hbook]
              · simp [h1, h2, h3, h4, h5, h6]

/-- C3: for every game and every `max_plies ≥ 0`, the visitor performs at
most `max_plies` calls to `increment_or_insert` for that game; moreover a
move rejected by the engine-side filter or carrying the comment "book"
performs no `increment_or_insert` call and leaves `retained_plies`
unchanged, so it does not count against the `max_plies` budget. -/
theorem ply_budget (cfg : MoveConfig) (tab : Table) (game : List MoveIn)
    (h : 0 ≤ cfg.max_plies) :
    ((runGame cfg initState tab game).inc : Int) ≤ cfg.max_plies
    ∧ ∀ (st : VisState) (t : Table) (mi : MoveIn),
        (cfg.do_filter = true ∧ cfg.filter_side ≠ mi.side_to_move) ∨ mi.comment = "book" →
        (moveStep cfg st t mi).inc = 0
        ∧ (moveStep cfg st t mi).st.retained_plies = st.retained_plies := by
  constructor
  · have hb := runGame_inc_le cfg game initState tab
    have h0 : initState.retained_plies = 0 := rfl
    rw [h0, Nat.sub_zero] at hb
    omega
  · intro st t mi hmi
    exact moveStep_nocount cfg st t mi hmi

/-- C3 witness. -/
theorem ply_budget_witness :
    (0 : Int) ≤ cfgB.max_plies
    ∧ ((runGame cfgB initState [] [miA]).inc : Int) ≤ cfgB.max_plies :=
  ⟨by decide, (ply_budget cfgB [] [miA] (by decide)).1⟩

/-- C4: with `stopEarly` and `countStopEarly = C ≥ 1`, once a prefix of the
game drives `new_entry_count` to `C` the visitor is in the skipped state
and the remainder of the game contributes no further `increment_or_insert`
calls; and with `stopEarly` off (`count_stop_early = UINT_MAX`, set at
src/fastpopular.cpp lines 637-638) and an `int`-ranged `max_plies`, no
prefix of a game ever brings `new_entry_count` to `count_stop_early`, so
the early-stop skip never fires. -/
theorem early_stop (cfg : MoveConfig) (tab : Table) (game : List MoveIn) :
    (1 ≤ cfg.count_stop_early →
      ∀ n, (runGame cfg initState tab (game.take n)).st.new_entry_count =
            cfg.count_stop_early →
        (runGame cfg initState tab (game.take n)).st.skip = true
        ∧ (runGame cfg initState tab game).inc
            = (runGame cfg initState tab (game.take n)).inc)
    ∧ (cfg.count_stop_early = U32 - 1 → 0 ≤ cfg.max_plies →
        cfg.max_plies ≤ 2 ^ 31 - 1 →
      ∀ n, (runGame cfg initState tab (game.take n)).st.new_entry_count ≠
            cfg.count_stop_early) := by
  constructor
  · intro hC n hnec
    have hinv := runGame_ne_cse cfg (game.take n) initState tab
      (by intro _; simp [initState]; omega)
    have hskip : (runGame cfg initState tab (game.take n)).st.skip = true := by
      by_contra hf
      have hf' : (runGame cfg initState tab (game.take n)).st.skip = false := by
        simpa using hf
      exact (hinv hf') hnec
    refine ⟨hskip, ?_⟩
    conv_lhs => rw [← List.take_append_drop n game]
    rw [runGame_inc_append]
    rw [runGame_skip cfg _ _ (game.drop n) hskip]
    simp
  · intro hcse hmp0 hmp31 n
    have hU : U32 = 4294967296 := by norm_num [U32]
    have h31 : (2 : Int) ^ 31 - 1 = 2147483647 := by norm_num
    rw [h31] at hmp31
    have h0 : initState.new_entry_count = 0 := rfl
    have h0' : initState.retained_plies = 0 := rfl
    have hpre : initState.new_entry_count + (cfg.max_plies.toNat - initState.retained_plies)
        < U32 := by
      rw [h0, h0', Nat.sub_zero, Nat.zero_add, hU]
      omega
    have hb := runGame_nec_le cfg (game.take n) initState tab hpre
    rw [h0, h0', Nat.sub_zero, Nat.zero_add] at hb
    rw [hcse, hU]
    omega

/-- C4 witness. -/
theorem early_stop_witness :
    1 ≤ cfgA.count_stop_early
    ∧ ((runGame cfgA initState [] ([miA].take 1)).st.skip = true
       ∧ (runGame cfgA initState [] [miA]).inc
           = (runGame cfgA initState [] ([miA].take 1)).inc) :=
  ⟨by decide, (early_stop cfgA [] [miA]).1 (by decide) 1 (by decide)⟩

lemma moveStep_inc_pass (cfg : MoveConfig) (st : VisState) (tab : Table) (mi : MoveIn)
    (h1 : st.skip = false) (h2 : ¬ cfg.max_plies ≤ (st.retained_plies : Int))
    (h3 : mi.parse_ok = true)
    (h4 : ¬ (1 < cfg.tb_limit ∧ mi.piece_count ≤ cfg.tb_limit))
    (h5 : ¬ (cfg.omit_mates = true ∧ mi.has_legal = false))
    (h7 : mi.comment ≠ "book")
    (h6 : cfg.do_filter = false ∨ cfg.filter_side = mi.side_to_move) :
    (moveStep cfg st tab mi).inc = 1 := by
  have h3' : ¬ mi.parse_ok = false := by simp [h3]
  unfold moveStep
  rw [if_neg (by simp [h1]), if_neg h2, if_neg h3', if_neg h4, if_neg h5, if_pos h6, if_pos h7]
  split <;> split <;> rfl

lemma moveStep_inc_filtered (cfg : MoveConfig) (st : VisState) (tab : Table) (mi : MoveIn)
    (h1 : st.skip = false) (h2 : ¬ cfg.max_plies ≤ (st.retained_plies : Int))
    (h3 : mi.parse_ok = true)
    (h4 : ¬ (1 < cfg.tb_limit ∧ mi.piece_count ≤ cfg.tb_limit))
    (h5 : ¬ (cfg.omit_mates = true ∧ mi.has_legal = false))
    (h6 : ¬ (cfg.do_filter = false ∨ cfg.filter_side = mi.side_to_move)) :
    (moveStep cfg st tab mi).inc = 0 := by
  have h3' : ¬ mi.parse_ok = false := by simp [h3]
  unfold moveStep
  rw [if_neg (by simp [h1]), if_neg h2, if_neg h3', if_neg h4, if_neg h5, if_neg h6]

/-- C5 counterexample: two divergences from the claim at concrete inputs.
First, with the engine regex set and two non-empty names neither of which
matches, `startMoves` leaves filtering enabled with `filter_side = NONE`
(it does not disable filtering), and under that state a successfully
parsed non-book move performs no `increment_or_insert` call — so "if
neither name matches, filtering is disabled and every (non-book) move of
the game is counted" is false. Second, with `filter_side = WHITE` the
filter compares against `board.sideToMove()` AFTER the move: a move made
by White (Black to move afterwards) is not counted, while a move made by
Black (White to move afterwards) is — so "only moves made by that side
are counted" is also false. -/
theorem engine_filter_neither_cex :
    (matchesC "A" = false ∧ matchesC "B" = false
      ∧ ("A" : String) ≠ "" ∧ ("B" : String) ≠ ""
      ∧ startMoves true 0 0 0 true matchesC "A" "B" = StartOut.play true XColor.none
      ∧ miA.comment ≠ "book" ∧ miA.parse_ok = true
      ∧ (moveStep cfgC initState [] miA).inc = 0)
    ∧ (cfgD.filter_side = XColor.white
      ∧ miB.side_to_move = XColor.black ∧ miB.parse_ok = true ∧ miB.comment ≠ "book"
      ∧ (moveStep cfgD initState [] miB).inc = 0
      ∧ (moveStep cfgD initState [] miA).inc = 1) := by
  decide

/-- C5 amended: with the regex set and both names non-empty, if exactly one
name matches, `filter_side` is set to that colour with filtering enabled;
if both match, filtering is disabled; if neither matches, filtering stays
enabled with `filter_side = NONE`, so no move of the game is counted; if
either name is empty, the game is skipped. With filtering enabled, a move
passing all other checks is counted iff the side to move AFTER the move
equals `filter_side` (i.e. the move was made by the other colour); with
filtering disabled every such non-book move is counted. -/
theorem engine_filter_cases (mtc : String → Bool) (white black : String) :
    (white ≠ "" → black ≠ "" → mtc white = true → mtc black = false →
      startMoves true 0 0 0 true mtc white black = StartOut.play true XColor.white)
    ∧ (white ≠ "" → black ≠ "" → mtc white = false → mtc black = true →
      startMoves true 0 0 0 true mtc white black = StartOut.play true XColor.black)
    ∧ (white ≠ "" → black ≠ "" → mtc white = true → mtc black = true →
      startMoves true 0 0 0 true mtc white black = StartOut.play false XColor.white)
    ∧ (white ≠ "" → black ≠ "" → mtc white = false → mtc black = false →
      startMoves true 0 0 0 true mtc white black = StartOut.play true XColor.none)
    ∧ (white = "" ∨ black = "" →
      startMoves true 0 0 0 true mtc white black = StartOut.skip)
    ∧ (∀ (cfg : MoveConfig) (st : VisState) (tab : Table) (mi : MoveIn),
        st.skip = false → ¬ cfg.max_plies ≤ (st.retained_plies : Int) →
        mi.parse_ok = true → ¬ (1 < cfg.tb_limit ∧ mi.piece_count ≤ cfg.tb_limit) →
        ¬ (cfg.omit_mates = true ∧ mi.has_legal = false) → mi.comment ≠ "book" →
        cfg.do_filter = true →
        (moveStep cfg st tab mi).inc =
          (if cfg.filter_side = mi.side_to_move then 1 else 0))
    ∧ (∀ (cfg : MoveConfig) (st : VisState) (tab : Table) (mi : MoveIn),
        st.skip = false → ¬ cfg.max_plies ≤ (st.retained_plies : Int) →
        mi.parse_ok = true → ¬ (1 < cfg.tb_limit ∧ mi.piece_count ≤ cfg.tb_limit) →
        ¬ (cfg.omit_mates = true ∧ mi.has_legal = false) → mi.comment ≠ "book" →
        cfg.do_filter = false →
        (moveStep cfg st tab mi).inc = 1) := by
  refine ⟨?_, ?_, ?_, ?_, ?_, ?_, ?_⟩
  · intro hw hb h1 h2
    simp [startMoves, hw, hb, h1, h2]
  · intro hw hb h1 h2
    simp [startMoves, hw, hb, h1, h2]
  · intro hw hb h1 h2
    simp [startMoves, hw, hb, h1, h2]
  · intro hw hb h1 h2
    simp [startMoves, hw, hb, h1, h2]
  · intro hwb
    simp [startMoves, hwb]
  · intro cfg st tab mi h1 h2 h3 h4 h5 h7 hdf
    by_cases hfs : cfg.filter_side = mi.side_to_move
    · rw [if_pos hfs]
      exact moveStep_inc_pass cfg st tab mi h1 h2 h3 h4 h5 h7 (Or.inr hfs)
    · rw [if_neg hfs]
      exact moveStep_inc_filtered cfg st tab mi h1 h2 h3 h4 h5 (by simp [hdf, hfs])
  · intro cfg st tab mi h1 h2 h3 h4 h5 h7 hdf
    exact moveStep_inc_pass cfg st tab mi h1 h2 h3 h4 h5 h7 (Or.inl hdf)

/-- C5 amended witness. -/
theorem engine_filter_cases_witness :
    startMoves true 0 0 0 true (fun s => s == "W") "W" "B" =
      StartOut.play true XColor.white :=
  (engine_filter_cases (fun s => s == "W") "W" "B").1 (by decide) (by decide)
    (by decide) (by decide)

/-- C6 counterexample: the rewrite condition is the regex `"0 1$"`, which
also matches a FEN value ending in "10 1" without a space before the zero:
with `book_depth = 7` (move counter "8"), the value "x 10 1" does not end
in " 0 1" yet is rewritten (to "x 10 8"), so "rewritten if and only if the
value ends with ' 0 1'" is false. -/
theorem fix_fen_cex :
    fixFenValue ('8' :: []) ('x' :: ' ' :: '1' :: '0' :: ' ' :: '1' :: [])
      = 'x' :: ' ' :: '1' :: '0' :: ' ' :: '8' :: []
    ∧ specFixCond ('x' :: ' ' :: '1' :: '0' :: ' ' :: '1' :: []) = false
    ∧ ('x' :: ' ' :: '1' :: '0' :: ' ' :: '1' :: [])
        ≠ ('x' :: ' ' :: '1' :: '0' :: ' ' :: '8' :: []) := by
  decide

/-- C6 amended: with `fix_fen` active and a known `book_depth` (non-empty
move counter), a FEN value is rewritten iff it ends with the three
characters "0 1" (no leading space required): values not ending in "0 1"
are parsed unchanged, values ending in " 0 1" have that suffix replaced by
" 0 <book_depth+1>" exactly as the spec describes (every value ending in
" 0 1" also ends in "0 1"). -/
theorem fix_fen_rewrite (mc : List Char) (h : mc ≠ []) :
    (∀ v : List Char, ('0' :: ' ' :: '1' :: []).isSuffixOf v = false → fixFenValue mc v = v)
    ∧ (∀ w : List Char,
        fixFenValue mc (w ++ ' ' :: '0' :: ' ' :: '1' :: []) = w ++ ' ' :: '0' :: ' ' :: mc)
    ∧ (∀ v : List Char, specFixCond v = true →
        ('0' :: ' ' :: '1' :: []).isSuffixOf v = true) := by
  refine ⟨?_, ?_, ?_⟩
  · intro v hv
    unfold fixFenValue
    rw [if_neg]
    simp [hv]
  · intro w
    have hsplit : w ++ ' ' :: '0' :: ' ' :: '1' :: []
        = (w ++ ' ' :: []) ++ '0' :: ' ' :: '1' :: [] := by simp
    have hsuf : ('0' :: ' ' :: '1' :: []).isSuffixOf (w ++ ' ' :: '0' :: ' ' :: '1' :: [])
        = true := by
      rw [List.isSuffixOf_iff_suffix, hsplit]
      exact List.suffix_append _ _
    unfold fixFenValue
    rw [if_pos ⟨h, hsuf⟩]
    have hlen : (w ++ ' ' :: '0' :: ' ' :: '1' :: []).length - 3 = (w ++ ' ' :: []).length := by
      simp
    rw [hlen, hsplit, List.take_left]
    simp
  · intro v hv
    rw [List.isSuffixOf_iff_suffix]
    unfold specFixCond at hv
    rw [List.isSuffixOf_iff_suffix] at hv
    obtain ⟨t, ht⟩ := hv
    exact ⟨t ++ ' ' :: [], by simpa using ht⟩

/-- C6 amended witness. -/
theorem fix_fen_rewrite_witness :
    ('8' :: []) ≠ ([] : List Char)
    ∧ fixFenValue ('8' :: []) (('f' :: []) ++ ' ' :: '0' :: ' ' :: '1' :: [])
        = ('f' :: []) ++ ' ' :: '0' :: ' ' :: '8' :: [] :=
  ⟨by decide, (fix_fen_rewrite ('8' :: []) (by decide)).2.1 ('f' :: [])⟩

lemma takeWhile_append_of {α : Type} (p : α → Bool) (a : List α) (x : α) (r : List α)
    (ha : ∀ c ∈ a, p c = true) (hx : p x = false) :
    (a ++ x :: r).takeWhile p = a := by
  induction a with
  | nil => simp [List.takeWhile_cons, hx]
  | cons y ys ih =>
      have hy : p y = true := ha y (by simp)
      have ih' := ih (fun c hc => ha c (by simp [hc]))
      simp [List.takeWhile_cons, hy, ih']

lemma dropWhile_append_of {α : Type} (p : α → Bool) (a : List α) (x : α) (r : List α)
    (ha : ∀ c ∈ a, p c = true) (hx : p x = false) :
    (a ++ x :: r).dropWhile p = x :: r := by
  induction a with
  | nil => simp [List.dropWhile_cons, hx]
  | cons y ys ih =>
      have hy : p y = true := ha y (by simp)
      have ih' := ih (fun c hc => ha c (by simp [hc]))
      simp [List.dropWhile_cons, hy, ih']

/-- C7 counterexample: for a file "d/a-b-0.pgn" the code keys the metadata
by the prefix of the base name before the FIRST '-' or '.', giving "d/a",
while stripping everything from the last '-' onward (the claim) would give
"d/a-b". -/
theorem test_filename_cex :
    test_filename ⟨'d' :: [],
        'a' :: '-' :: 'b' :: '-' :: '0' :: '.' :: 'p' :: 'g' :: 'n' :: []⟩
      = 'd' :: '/' :: 'a' :: []
    ∧ spec_test_filename ⟨'d' :: [],
        'a' :: '-' :: 'b' :: '-' :: '0' :: '.' :: 'p' :: 'g' :: 'n' :: []⟩
      = 'd' :: '/' :: 'a' :: '-' :: 'b' :: []
    ∧ ('d' :: '/' :: 'a' :: []) ≠ ('d' :: '/' :: 'a' :: '-' :: 'b' :: []) := by
  decide

/-- C7 amended: the test filename is the parent path joined with the prefix
of the base name before the first '-' or '.'; for base names of the shape
`id-rest` where `id` contains neither '-' nor '.' and `rest` contains no
further '-', this coincides with stripping from the last '-'. -/
theorem test_filename_first_sep (par a rest : List Char)
    (ha : ∀ c ∈ a, ¬ (c = '-' ∨ c = '.')) (hrest : '-' ∉ rest) :
    test_filename ⟨par, a ++ '-' :: rest⟩ = joinPath par a
    ∧ stripLastDash (a ++ '-' :: rest) = a := by
  constructor
  · unfold test_filename test_id
    have := takeWhile_append_of (fun c => ! (c == '-' || c == '.')) a '-' rest
      (fun c hc => by
        have := ha c hc
        simp at this
        simp [this])
      (by simp)
    simp only [this]
  · unfold stripLastDash
    have hrev : (a ++ '-' :: rest).reverse = rest.reverse ++ '-' :: a.reverse := by
      simp
    rw [hrev]
    have := dropWhile_append_of (fun c => ! (c == '-')) rest.reverse '-' a.reverse
      (fun c hc => by
        have hcr : c ∈ rest := by simpa using hc
        have : ¬ c = '-' := fun hcc => hrest (hcc ▸ hcr)
        simp [this])
      (by simp)
    rw [this]
    simp

/-- C7 amended witness. -/
theorem test_filename_first_sep_witness :
    test_filename ⟨'d' :: [], ('a' :: []) ++ '-' :: ('0' :: [])⟩ = joinPath ('d' :: []) ('a' :: [])
    ∧ stripLastDash (('a' :: []) ++ '-' :: ('0' :: [])) = 'a' :: [] :=
  test_filename_first_sep ('d' :: []) ('a' :: []) ('0' :: []) (by decide) (by decide)

lemma chunksGo_join {α : Type} (cs : Nat) : ∀ (n : Nat) (l : List α), l.length ≤ n →
    (chunksGo cs l).flatten = l := by
  intro n
  induction n with
  | zero =>
      intro l h
      have : l = [] := List.length_eq_zero.mp (Nat.le_zero.mp h)
      subst this
      simp [chunksGo]
  | succ n ih =>
      intro l h
      cases l with
      | nil => simp [chunksGo]
      | cons x xs =>
          have hxs : (xs.drop (cs - 1)).length ≤ n := by
            simp [List.length_drop]
            have hx : xs.length ≤ n := by simp at h; omega
            omega
          simp only [chunksGo, List.flatten_cons]
          rw [ih (xs.drop (cs - 1)) hxs]
          simp [List.take_append_drop]

lemma chunksGo_ne_nil {α : Type} (cs : Nat) : ∀ (n : Nat) (l : List α), l.length ≤ n →
    ∀ ch ∈ chunksGo cs l, ch ≠ [] := by
  intro n
  induction n with
  | zero =>
      intro l h
      have : l = [] := List.length_eq_zero.mp (Nat.le_zero.mp h)
      subst this
      simp [chunksGo]
  | succ n ih =>
      intro l h
      cases l with
      | nil => simp [chunksGo]
      | cons x xs =>
          have hxs : (xs.drop (cs - 1)).length ≤ n := by
            simp [List.length_drop]
            have hx : xs.length ≤ n := by simp at h; omega
            omega
          simp only [chunksGo, List.mem_cons]
          intro ch hch
          rcases hch with hch | hch
          · subst hch
            simp
          · exact ih (xs.drop (cs - 1)) hxs ch hch

lemma chunksGo_length {α : Type} (cs : Nat) (hcs : 1 ≤ cs) :
    ∀ (n : Nat) (l : List α), l.length ≤ n →
    (chunksGo cs l).length = (l.length + cs - 1) / cs := by
  intro n
  induction n with
  | zero =>
      intro l h
      have : l = [] := List.length_eq_zero.mp (Nat.le_zero.mp h)
      subst this
      simp [chunksGo]
      symm
      apply Nat.div_eq_of_lt
      omega
  | succ n ih =>
      intro l h
      cases l with
      | nil =>
          simp [chunksGo]
          symm
          apply Nat.div_eq_of_lt
          omega
      | cons x xs =>
          have hxs : (xs.drop (cs - 1)).length ≤ n := by
            simp [List.length_drop]
            have hx : xs.length ≤ n := by simp at h; omega
            omega
          simp only [chunksGo, List.length_cons]
          rw [ih (xs.drop (cs - 1)) hxs]
          simp only [List.length_drop]
          have h2 : xs.length + 1 + cs - 1 = xs.length + cs := by omega
          rw [h2, Nat.add_div_right _ (by omega)]
          by_cases hm : cs - 1 ≤ xs.length
          · have h1 : xs.length - (cs - 1) + cs - 1 = xs.length := by omega
            rw [h1]
          · have h1 : xs.length - (cs - 1) = 0 := by omega
            rw [h1]
            have h3 : (0 + cs - 1) / cs = 0 := Nat.div_eq_of_lt (by omega)
            have h4 : xs.length / cs = 0 := Nat.div_eq_of_lt (by omega)
            rw [h3, h4]

/-- C9 counterexample: 5 files with concurrency 1 (target `4 × 1 = 4`
chunks) produce `⌈5/⌈5/4⌉⌉ = 3` chunks, not 4 — so "exactly
`⌈4 × concurrency⌉` chunks" is false for a non-empty list. -/
theorem split_chunks_count_cex :
    (["a", "b", "c", "d", "e"] : List String) ≠ []
    ∧ (split_chunks (["a", "b", "c", "d", "e"] : List String) (4 * 1)).length = 3
    ∧ 3 ≠ 4 * 1 := by
  refine ⟨by decide, ?_, by decide⟩
  norm_num [split_chunks, chunksGo]

/-- C9 amended: for a non-empty file list of length `n` and concurrency
`c ≥ 1`, `split_chunks` with target `4c` produces exactly
`⌈n / ⌈n / 4c⌉⌉` contiguous chunks, which is at most `4c` (but can be
fewer). -/
theorem split_chunks_length {α : Type} (l : List α) (c : Nat) (hl : l ≠ []) (hc : 1 ≤ c) :
    (split_chunks l (4 * c)).length
      = (l.length + (l.length + 4 * c - 1) / (4 * c) - 1) / ((l.length + 4 * c - 1) / (4 * c))
    ∧ (split_chunks l (4 * c)).length ≤ 4 * c := by
  have hn : 1 ≤ l.length := by
    cases l with
    | nil => simp at hl
    | cons x xs => simp
  have hcs : 1 ≤ (l.length + 4 * c - 1) / (4 * c) := by
    rw [Nat.le_div_iff_mul_le (by omega)]
    omega
  have hlen : (split_chunks l (4 * c)).length
      = (l.length + (l.length + 4 * c - 1) / (4 * c) - 1) / ((l.length + 4 * c - 1) / (4 * c)) :=
    chunksGo_length _ hcs l.length l le_rfl
  refine ⟨hlen, ?_⟩
  rw [hlen]
  have hdm := Nat.div_add_mod (l.length + 4 * c - 1) (4 * c)
  have hmlt : (l.length + 4 * c - 1) % (4 * c) < 4 * c :=
    Nat.mod_lt _ (by omega)
  have hkey : l.length ≤ 4 * c * ((l.length + 4 * c - 1) / (4 * c)) := by omega
  have hfin : (l.length + (l.length + 4 * c - 1) / (4 * c) - 1)
      / ((l.length + 4 * c - 1) / (4 * c)) < 4 * c + 1 := by
    rw [Nat.div_lt_iff_lt_mul (by omega)]
    rw [Nat.add_mul]
    omega
  omega

/-- C9 amended witness. -/
theorem split_chunks_length_witness :
    (["a", "b", "c", "d", "e"] : List String) ≠ [] ∧ 1 ≤ 1
    ∧ (split_chunks (["a", "b", "c", "d", "e"] : List String) (4 * 1)).length ≤ 4 * 1 :=
  ⟨by decide, by decide,
    (split_chunks_length (["a", "b", "c", "d", "e"] : List String) 1 (by decide) (by decide)).2⟩

/-- C10: for every file list and every target `≥ 1`, the chunks returned
by `split_chunks` concatenate back to exactly the input list (no file
dropped, duplicated or reordered) and every chunk is non-empty. -/
theorem split_chunks_partition {α : Type} (l : List α) (t : Nat) (ht : 1 ≤ t) :
    (split_chunks l t).flatten = l ∧ ∀ ch ∈ split_chunks l t, ch ≠ [] := by
  constructor
  · exact chunksGo_join _ l.length l le_rfl
  · exact chunksGo_ne_nil _ l.length l le_rfl

/-- C10 witness. -/
theorem split_chunks_partition_witness :
    (1 : Nat) ≤ 2
    ∧ (split_chunks (["a", "b", "c"] : List String) 2).flatten = ["a", "b", "c"] :=
  ⟨by decide, (split_chunks_partition (["a", "b", "c"] : List String) 2 (by decide)).1⟩

lemma mem_insertLe (p q : Path) (l : List Path) : q ∈ insertLe p l ↔ q = p ∨ q ∈ l := by
  induction l with
  | nil => simp [insertLe]
  | cons r rs ih =>
      simp only [insertLe]
      split
      · simp [List.mem_cons]
      · simp only [List.mem_cons, ih]
        tauto

lemma mem_sortPaths (p : Path) (l : List Path) : p ∈ sortPaths l ↔ p ∈ l := by
  induction l with
  | nil => simp [sortPaths]
  | cons q qs ih =>
      simp only [sortPaths, mem_insertLe, ih, List.mem_cons]

lemma split_chunks_flatten {α : Type} (l : List α) (t : Nat) :
    (split_chunks l t).flatten = l :=
  chunksGo_join _ l.length l le_rfl

lemma ana_exit_of_missing (meta : List Char → Option TestMeta) (l : List Path) (p : Path)
    (hp : p ∈ l) (hm : meta (test_filename p) = Option.none) :
    ana_exit meta true l = true := by
  induction l with
  | nil => simp at hp
  | cons q qs ih =>
      rcases List.mem_cons.mp hp with hq | hq
      · subst hq
        simp [ana_exit, hm]
      · simp only [ana_exit]
        rw [if_pos trivial]
        cases hmq : meta (test_filename q) with
        | none => rfl
        | some md =>
            dsimp only
            cases hbd : md.book_depth with
            | some d => exact ih hq
            | none =>
                dsimp only
                cases hbk : md.book with
                | none => rfl
                | some b =>
                    dsimp only
                    by_cases he : epdSearch b
                    · simp [he]
                    · simp [he, ih hq]

lemma mainChecks_save (a : MainArgs) (env : MainEnv) (files : List Path)
    (hs : a.save_count = true) (ho : a.omit_move_counter = false) :
    mainChecks a env files = 1 := by
  unfold mainChecks
  split_ifs with h1 h2 h3 h4 <;> try rfl
  exact absurd ⟨hs, ho⟩ h3

lemma mainChecks_dup (a : MainArgs) (env : MainEnv) (files : List Path)
    (hd : dup_check (sortPaths files) [] = true) (hall : a.allow_duplicates = false) :
    mainChecks a env files = 1 := by
  unfold mainChecks
  split_ifs with h1 h2 h3 h4 <;> try rfl
  all_goals exact absurd ⟨hd, hall⟩ h2

lemma mainChecks_ana (a : MainArgs) (env : MainEnv) (files : List Path)
    (hfix : a.fix_fens = true)
    (hex : ∃ p ∈ files, env.meta (test_filename p) = Option.none) :
    mainChecks a env files = 1 := by
  obtain ⟨p, hp, hm⟩ := hex
  have hps : p ∈ sortPaths files := (mem_sortPaths p files).mpr hp
  have hflat : p ∈ (split_chunks (sortPaths files) (4 * a.concurrency)).flatten := by
    rw [split_chunks_flatten]
    exact hps
  obtain ⟨ch, hch, hpch⟩ := List.mem_flatten.mp hflat
  have hana : ana_exit env.meta a.fix_fens ch = true := by
    rw [hfix]
    exact ana_exit_of_missing env.meta ch p hpch hm
  have hany : (split_chunks (sortPaths files) (4 * a.concurrency)).any
      (fun ch => ana_exit env.meta a.fix_fens ch) = true :=
    List.any_eq_true.mpr ⟨ch, hch, hana⟩
  unfold mainChecks
  split_ifs with h1 h2 h3 <;> rfl

lemma mainChecks_success (a : MainArgs) (env : MainEnv) (files : List Path)
    (h1 : adjacentDup ((sortPaths files).map pathStr) = false)
    (h2 : a.allow_duplicates = true ∨ dup_check (sortPaths files) [] = false)
    (h3 : a.save_count = false ∨ a.omit_move_counter = true)
    (h4 : (split_chunks (sortPaths files) (4 * a.concurrency)).any
        (fun ch => ana_exit env.meta a.fix_fens ch) = false) :
    mainChecks a env files = 0 := by
  unfold mainChecks
  rw [if_neg (by simp [h1]), if_neg (by rcases h2 with h | h <;> simp [h]),
    if_neg (by rcases h3 with h | h <;> simp [h]), if_neg (by simp [h4])]

/-- C8: the modelled `main` exits 1 when the `--file` target does not
exist, when `--saveCount` is given without `--omitMoveCounter`, when a
duplicate test is detected without `--allowDuplicates`, and when metadata
needed under `--fixFEN` is missing for some file's test; when none of the
error conditions hold (including the adjacent duplicate-file check) it
exits 0. -/
theorem exit_codes (a : MainArgs) (env : MainEnv) :
    (∀ p, a.file = some p → env.file_on_disk p = false → mainExit a env = 1)
    ∧ (a.save_count = true → a.omit_move_counter = false → mainExit a env = 1)
    ∧ (a.allow_duplicates = false →
        dup_check (sortPaths (mainFiles a env)) [] = true → mainExit a env = 1)
    ∧ (a.fix_fens = true → 1 ≤ a.concurrency →
        (∃ p ∈ mainFiles a env, env.meta (test_filename p) = Option.none) →
        mainExit a env = 1)
    ∧ ((∀ p, a.file = some p → env.file_on_disk p = true) →
        adjacentDup ((sortPaths (mainFiles a env)).map pathStr) = false →
        (a.allow_duplicates = true ∨ dup_check (sortPaths (mainFiles a env)) [] = false) →
        (a.save_count = false ∨ a.omit_move_counter = true) →
        (split_chunks (sortPaths (mainFiles a env)) (4 * a.concurrency)).any
            (fun ch => ana_exit env.meta a.fix_fens ch) = false →
        mainExit a env = 0) := by
  refine ⟨?_, ?_, ?_, ?_, ?_⟩
  · intro p hp hd
    simp [mainExit, hp, hd]
  · intro hs ho
    cases ha : a.file with
    | none =>
        simp only [mainExit, ha]
        exact mainChecks_save a env env.discovered hs ho
    | some p =>
        simp only [mainExit, ha]
        split
        · rfl
        · exact mainChecks_save a env (p :: []) hs ho
  · intro hall hd
    rw [show mainFiles a env = (match a.file with
        | some p => p :: []
        | Option.none => env.discovered) from rfl] at hd
    cases ha : a.file with
    | none =>
        rw [ha] at hd
        simp only [mainExit, ha]
        exact mainChecks_dup a env env.discovered hd hall
    | some p =>
        rw [ha] at hd
        simp only [mainExit, ha]
        split
        · rfl
        · exact mainChecks_dup a env (p :: []) hd hall
  · intro hfix hcon hex
    rw [show mainFiles a env = (match a.file with
        | some p => p :: []
        | Option.none => env.discovered) from rfl] at hex
    cases ha : a.file with
    | none =>
        rw [ha] at hex
        simp only [mainExit, ha]
        exact mainChecks_ana a env env.discovered hfix hex
    | some p =>
        rw [ha] at hex
        simp only [mainExit, ha]
        split
        · rfl
        · exact mainChecks_ana a env (p :: []) hfix hex
  · intro hfile h1 h2 h3 h4
    rw [show mainFiles a env = (match a.file with
        | some p => p :: []
        | Option.none => env.discovered) from rfl] at h1 h2 h4
    cases ha : a.file with
    | none =>
        rw [ha] at h1 h2 h4
        simp only [mainExit, ha]
        exact mainChecks_success a env env.discovered h1 h2 h3 h4
    | some p =>
        rw [ha] at h1 h2 h4
        simp only [mainExit, ha]
        rw [if_neg (by simp [hfile p ha])]
        exact mainChecks_success a env (p :: []) h1 h2 h3 h4

/-- C8 witness. -/
theorem exit_codes_witness :
    argsW.save_count = true ∧ argsW.omit_move_counter = false
    ∧ mainExit argsW envW = 1 :=
  ⟨by decide, by decide, (exit_codes argsW envW).2.1 (by decide) (by decide)⟩

end Fastpopular
